import Mathlib

/-!
Verification development for the `async-optimizers` repository: a derivative-free
numerical optimizer consisting of a bracketing + golden-section 1D line minimizer
and Powell's multivariate direction-set method.

The embedding models JavaScript numbers as exact extended rationals with an
explicit NaN value (`JsNum`).  IEEE-754 rounding is idealized away (finite
arithmetic is exact), but the special-value semantics that the control flow of
the source depends on (NaN propagation, comparisons with NaN being false,
`Math.max`/`Math.min` returning NaN on NaN inputs, signed infinities, division
by zero) are modelled faithfully.  Iteration counters, which the source keeps in
JS numbers but only ever uses as non-negative integers, are modelled as `Nat`.
-/

/-- An exact fraction `num / den`, kept unnormalized: the kernel cannot
efficiently reduce the gcd normalization of Mathlib's rationals, so the
embedding carries fractions as an integer numerator over a natural
denominator and compares them by cross-multiplication.  Every fraction built
by the operations below from literal fractions has a positive denominator
(denominators only ever multiply, and division is guarded by the zero test of
the JS layer), which is what makes the comparisons below mean the comparisons
of the represented rational values. -/
structure Frac where
  num : ℤ
  den : ℕ
deriving DecidableEq, Repr

namespace Frac

/-- The represented rational value (for reading the embedding; the
operations never use it). -/
def val (a : Frac) : ℚ := (a.num : ℚ) / (a.den : ℚ)

def isZero (a : Frac) : Bool := a.num = 0

def isPos (a : Frac) : Bool := 0 < a.num

def isNeg (a : Frac) : Bool := a.num < 0

def add (a b : Frac) : Frac := ⟨a.num * b.den + b.num * a.den, a.den * b.den⟩

def neg (a : Frac) : Frac := ⟨-a.num, a.den⟩

def sub (a b : Frac) : Frac := add a (neg b)

def mul (a b : Frac) : Frac := ⟨a.num * b.num, a.den * b.den⟩

/-- Division; callers divide only by nonzero fractions (the JS layer maps
division by zero to signed infinities or NaN before reaching here). -/
def div (a b : Frac) : Frac :=
  if b.num < 0 then ⟨-(a.num * b.den), a.den * b.num.natAbs⟩
  else ⟨a.num * b.den, a.den * b.num.natAbs⟩

/-- Value equality by cross-multiplication. -/
def beq (a b : Frac) : Bool := a.num * b.den = b.num * a.den

/-- Value comparison by cross-multiplication. -/
def blt (a b : Frac) : Bool := a.num * b.den < b.num * a.den

def babs (a : Frac) : Frac := ⟨(a.num.natAbs : ℤ), a.den⟩

end Frac

/-- A JavaScript number, idealized: NaN, the two infinities, or an exact
fraction (the source's finite doubles).  The negative-zero/positive-zero
distinction is dropped; no code path in this repository depends on it. -/
inductive JsNum where
  | nan
  | inf
  | ninf
  | fin (q : Frac)
deriving DecidableEq, Repr

namespace JsNum

/-- `isFinite` of JS. -/
def isFin : JsNum → Bool
  | fin _ => true
  | _ => false

/-- `isNaN` of JS. -/
def isNan : JsNum → Bool
  | nan => true
  | _ => false

/-- JS unary minus. -/
def neg : JsNum → JsNum
  | nan => nan
  | inf => ninf
  | ninf => inf
  | fin q => fin q.neg

/-- JS `+` on numbers: NaN propagates, opposite infinities give NaN. -/
def add : JsNum → JsNum → JsNum
  | nan, _ => nan
  | _, nan => nan
  | inf, ninf => nan
  | inf, _ => inf
  | ninf, inf => nan
  | ninf, _ => ninf
  | fin _, inf => inf
  | fin _, ninf => ninf
  | fin a, fin b => fin (a.add b)

/-- JS `-` on numbers. -/
def sub (a b : JsNum) : JsNum := add a (neg b)

/-- JS `*` on numbers: NaN propagates, an infinity times zero is NaN,
otherwise infinities keep the product of the signs. -/
def mul : JsNum → JsNum → JsNum
  | nan, _ => nan
  | _, nan => nan
  | inf, inf => inf
  | inf, ninf => ninf
  | ninf, inf => ninf
  | ninf, ninf => inf
  | inf, fin b => if b.isZero then nan else if b.isPos then inf else ninf
  | ninf, fin b => if b.isZero then nan else if b.isPos then ninf else inf
  | fin a, inf => if a.isZero then nan else if a.isPos then inf else ninf
  | fin a, ninf => if a.isZero then nan else if a.isPos then ninf else inf
  | fin a, fin b => fin (a.mul b)

/-- JS `/` on numbers: `x/0` is a signed infinity for `x ≠ 0` and NaN for
`0/0`; an infinity divided by an infinity is NaN; a finite value divided by an
infinity is zero. -/
def div : JsNum → JsNum → JsNum
  | nan, _ => nan
  | _, nan => nan
  | inf, inf => nan
  | inf, ninf => nan
  | ninf, inf => nan
  | ninf, ninf => nan
  | inf, fin b => if b.isNeg then ninf else inf
  | ninf, fin b => if b.isNeg then inf else ninf
  | fin _, inf => fin ⟨0, 1⟩
  | fin _, ninf => fin ⟨0, 1⟩
  | fin a, fin b =>
      if b.isZero then (if a.isZero then nan else if a.isPos then inf else ninf)
      else fin (a.div b)

instance : Add JsNum := ⟨add⟩
instance : Sub JsNum := ⟨sub⟩
instance : Mul JsNum := ⟨mul⟩
instance : Div JsNum := ⟨div⟩
instance : Neg JsNum := ⟨neg⟩

/-- JS `<`: false whenever an operand is NaN. -/
def lt : JsNum → JsNum → Bool
  | nan, _ => false
  | _, nan => false
  | ninf, ninf => false
  | ninf, _ => true
  | _, ninf => false
  | inf, _ => false
  | fin _, inf => true
  | fin a, fin b => a.blt b

/-- JS `>`. -/
def gt (a b : JsNum) : Bool := lt b a

/-- JS `===` on numbers: false whenever an operand is NaN. -/
def seq : JsNum → JsNum → Bool
  | nan, _ => false
  | _, nan => false
  | inf, inf => true
  | ninf, ninf => true
  | fin a, fin b => a.beq b
  | _, _ => false

/-- JS `<=`: false whenever an operand is NaN. -/
def le (a b : JsNum) : Bool := lt a b || seq a b

/-- JS `Math.max`: NaN if an operand is NaN. -/
def max (a b : JsNum) : JsNum :=
  if a.isNan || b.isNan then nan else if lt a b then b else a

/-- JS `Math.min`: NaN if an operand is NaN. -/
def min (a b : JsNum) : JsNum :=
  if a.isNan || b.isNan then nan else if lt b a then b else a

/-- JS `Math.abs`. -/
def abs : JsNum → JsNum
  | nan => nan
  | inf => inf
  | ninf => inf
  | fin q => fin q.babs

/-- JS `Math.sqrt`, on the values where the exact-fraction idealization can
represent the result: NaN maps to NaN, negative inputs map to NaN, `∞` maps to
`∞`, and a finite non-negative fraction whose representation has a
perfect-square numerator and denominator maps to its exact square root.  On
other finite inputs the double result is in general irrational and has no
exact counterpart; this function returns NaN there.  Every theorem below
about `minimizePowell` either holds for an arbitrary square-root function or
only ever evaluates the square root at NaN, so the finite case is never
relied on. -/
def sqrt : JsNum → JsNum
  | nan => nan
  | inf => inf
  | ninf => nan
  | fin q =>
      if q.isNeg then nan
      else
        let n := q.num.toNat
        let d := q.den
        if n.sqrt * n.sqrt = n ∧ d.sqrt * d.sqrt = d then
          fin ⟨(n.sqrt : ℤ), d.sqrt⟩
        else nan

end JsNum

open JsNum


/-!
## Golden-section minimizer

Translated from the async `goldenSectionMinimize` bundled in
`src/.github/workflows/publish.yaml`, the variant `minimizePowell` awaits.
Its loop, probe updates, status bookkeeping and endpoint comparison coincide
textually with the sync variant bundled in
`src/src/minimizeGoldenSection1D.ts`; the two differ only in the post-loop
failure protocol (see `gssPost`), and the `await` on the objective is
invisible in this sequential embedding.  The source binds
`PHI_RATIO = 2 / (1 + Math.sqrt(5))`, an irrational constant with no exact
counterpart in the rational embedding; the ratio is therefore passed as an
explicit parameter `phi`, and every theorem below holds for an arbitrary value
of it (in particular for any floating-point approximation of the source's
constant).
-/

/-- The status record mutated by `goldenSectionMinimize`. -/
structure GssStatus where
  iterations : ℕ
  argmin : JsNum
  minimum : JsNum
  converged : Bool
deriving DecidableEq, Repr

/-- The loop state of `goldenSectionMinimize`: the shrinking interval
`[xL, xU]`, the probes `x1, x2` with values `f1, f2`, and the iteration
counter. -/
structure GssState where
  xL : JsNum
  xU : JsNum
  x1 : JsNum
  x2 : JsNum
  f1 : JsNum
  f2 : JsNum
  iteration : ℕ
deriving DecidableEq, Repr

/-- One body of the golden-section loop: shrink the interval from the side of
the larger probe value, replacing only one probe (one new evaluation of `f`). -/
def gssBody (phi : Frac) (f : JsNum → JsNum) (s : GssState) : GssState :=
  if gt s.f2 s.f1 then
    let xU := s.x2
    let x2 := s.x1
    let f2 := s.f1
    let x1 := xU - fin phi * (xU - s.xL)
    { s with xU := xU, x2 := x2, f2 := f2, x1 := x1, f1 := f x1 }
  else
    let xL := s.x1
    let x1 := s.x2
    let f1 := s.f2
    let x2 := xL + fin phi * (s.xU - xL)
    { s with xL := xL, x1 := x1, f1 := f1, x2 := x2, f2 := f x2 }

/-- The loop `while (++iteration < maxIterations && Math.abs(xU - xL) > tol)`.
The fuel argument is `maxIterations - 1 - iteration` so that the recursion
terminates structurally; running out of fuel is exactly the failure of the
pre-incremented counter test, so afterwards `iteration = maxIterations`
holds precisely when the budget (and not the width test) stopped the loop. -/
def gssLoop (phi : Frac) (f : JsNum → JsNum) (tol : JsNum) :
    ℕ → GssState → GssState
  | 0, s => { s with iteration := s.iteration + 1 }
  | fuel + 1, s =>
      let s := { s with iteration := s.iteration + 1 }
      if gt (abs (s.xU - s.xL)) tol then gssLoop phi f tol fuel (gssBody phi f s)
      else s

/-- The loop of `goldenSectionMinimize` run from the initial probes. -/
def gssRun (phi : Frac) (f : JsNum → JsNum) (xL xU tol : JsNum)
    (maxIterations : ℕ) : GssState :=
  let x1 := xU - fin phi * (xU - xL)
  let x2 := xL + fin phi * (xU - xL)
  gssLoop phi f tol (maxIterations - 1)
    ⟨xL, xU, x1, x2, f x1, f x2, 0⟩

/-- The post-loop result protocol of the async `goldenSectionMinimize`,
translated from its source bundled in `src/.github/workflows/publish.yaml`:
first, `iteration === maxIterations` returns the midpoint `0.5 * (xU + xL)` of
the remaining interval as a recoverable best estimate with
`converged = false`; then `isNaN(f2) || isNaN(f1)` makes the minimization fail
with an undefined result (`none`, the source's `undefined`) and
`converged = false`; otherwise the converged estimate is compared against the
two original endpoint values and the better point is returned with
`converged = true`.  (The sync variant bundled in
`src/src/minimizeGoldenSection1D.ts` differs exactly here: it folds both
failure tests into one branch that returns NaN.  The spec, section 4.2
Results, describes the async protocol.) -/
def gssPost (f : JsNum → JsNum) (xL xU : JsNum) (maxIterations : ℕ)
    (s : GssState) : Option JsNum × GssStatus :=
  let xF := fin ⟨1, 2⟩ * (s.xU + s.xL)
  let fF := fin ⟨1, 2⟩ * (s.f1 + s.f2)
  if s.iteration = maxIterations then (some xF, ⟨s.iteration, xF, fF, false⟩)
  else if s.f2.isNan || s.f1.isNan then (none, ⟨s.iteration, xF, fF, false⟩)
  else if lt (f xL) fF then (some xL, ⟨s.iteration, xF, fF, true⟩)
  else if lt (f xU) fF then (some xU, ⟨s.iteration, xF, fF, true⟩)
  else (some xF, ⟨s.iteration, xF, fF, true⟩)

/-- `goldenSectionMinimize(f, xL, xU, tol, maxIterations, status)` from the
async source bundled in `src/.github/workflows/publish.yaml`: the loop
followed by the post-loop result protocol (see `gssPost`).  Returns the
result (`none` is the source's `undefined`) together with the final status
record. -/
def goldenSectionMinimize (phi : Frac) (f : JsNum → JsNum) (xL xU tol : JsNum)
    (maxIterations : ℕ) : Option JsNum × GssStatus :=
  gssPost f xL xU maxIterations (gssRun phi f xL xU tol maxIterations)

/-!
## Bracketer

`minimizeGoldenSection1D` imports `bracketMinimum` from `./bracket-minimum`,
whose source is not under `src/`.
-/

/-- Clamp a point into the domain limits, each side only when finite. -/
def bracketClamp (xMin xMax x : JsNum) : JsNum :=
  let x := if xMin.isFin then max xMin x else x
  if xMax.isFin then min xMax x else x

/-- Modelled from the spec: one-sided exponential bracket expansion
(section 4.1).  From the two points `a < b` with `f` decreasing from `a` to
`b`, probe `c = b + step` (clamped to the upper limit), doubling the step each
round, until `f` stops decreasing (minimum bracketed, return `(a, c)`) or the
upper limit is hit (bracket clamped to the limit, return `(a, c)`).  When the
fuel (the spec's deliberately unspecified finite cap on doubling steps; 64
here) runs out the expansion reports failure as `(NaN, NaN)`. -/
def bracketExpandUp (f : JsNum → JsNum) (xMax : JsNum) :
    ℕ → JsNum → JsNum → JsNum → JsNum → JsNum × JsNum
  | 0, _, _, _, _ => (nan, nan)
  | fuel + 1, a, b, fb, step =>
      let c := if xMax.isFin then min xMax (b + step) else b + step
      let fc := f c
      if lt fc fb then
        if seq c xMax then (a, c)
        else bracketExpandUp f xMax fuel b c fc (step * fin ⟨2, 1⟩)
      else (a, c)

/-- Modelled from the spec: one-sided exponential bracket expansion downward,
the mirror image of `bracketExpandUp`. -/
def bracketExpandDown (f : JsNum → JsNum) (xMin : JsNum) :
    ℕ → JsNum → JsNum → JsNum → JsNum → JsNum × JsNum
  | 0, _, _, _, _ => (nan, nan)
  | fuel + 1, a, b, fb, step =>
      let c := if xMin.isFin then max xMin (b - step) else b - step
      let fc := f c
      if lt fc fb then
        if seq c xMin then (c, a)
        else bracketExpandDown f xMin fuel b c fc (step * fin ⟨2, 1⟩)
      else (c, a)

/-- Modelled from the spec: `bracketMinimum(bounds, f, x0, dx, xMin, xMax)`
(section 4.1), whose source file `bracket-minimum.ts` is not under `src/`.
Starting from the guess `x0`, step outward by `dx` in the direction of
decreasing `f`, doubling the step each iteration, until `f` increases again or
a domain limit is reached; on a monotone unbounded objective the expansion
gives up after the finite cap and reports failure as `(NaN, NaN)`.  Edge
cases per the spec: equal limits give that degenerate point as the bracket;
a flat (or immediately increasing) objective is treated as already bracketed
at the guess. -/
def bracketMinimum (f : JsNum → JsNum) (x0 dx xMin xMax : JsNum) :
    JsNum × JsNum :=
  if seq xMin xMax then (xMin, xMax)
  else
    let f0 := f x0
    if lt (f (x0 + dx)) f0 then
      bracketExpandUp f xMax 64 (bracketClamp xMin xMax (x0 - dx)) (x0 + dx)
        (f (x0 + dx)) (dx * fin ⟨2, 1⟩)
    else if lt (f (x0 - dx)) f0 then
      bracketExpandDown f xMin 64 (bracketClamp xMin xMax (x0 + dx)) (x0 - dx)
        (f (x0 - dx)) (dx * fin ⟨2, 1⟩)
    else (bracketClamp xMin xMax (x0 - dx), bracketClamp xMin xMax (x0 + dx))

/-!
## 1D line minimizer
-/

/-- The options record of `minimizeGoldenSection1D` (`MinimizeOptions`);
`none` is an absent field. -/
structure MinimizeOptions where
  tolerance : Option JsNum := none
  initialIncrement : Option JsNum := none
  lowerBound : Option JsNum := none
  upperBound : Option JsNum := none
  maxIterations : Option ℕ := none
  guess : Option JsNum := none

/-- `minimizeGoldenSection1D(f, options)`, following
`src/src/minimizeGoldenSection1D.ts` and composed with the async
`goldenSectionMinimize` from the `src/.github/workflows/publish.yaml` bundle
(the variant `minimizePowell` awaits): with two finite bounds the
golden-section search runs on them directly; otherwise a starting point is
constructed (the guess if supplied, else the midpoint of a doubly-bounded
side, the finite bound, or zero) and the bracketer is invoked, a failed
bracket (NaN bounds) reporting the not-a-number failure sentinel `some NaN`.
The golden-section result (which may be `none`, the async `undefined`) is
passed through. -/
def minimizeGoldenSection1D (phi : Frac) (f : JsNum → JsNum)
    (o : MinimizeOptions) : Option JsNum :=
  let tolerance := o.tolerance.getD (fin ⟨1, 100000000⟩)
  let dx := o.initialIncrement.getD (fin ⟨1, 1⟩)
  let xMin := o.lowerBound.getD ninf
  let xMax := o.upperBound.getD inf
  let maxIterations := o.maxIterations.getD 100
  if xMax.isFin && xMin.isFin then
    (goldenSectionMinimize phi f xMin xMax tolerance maxIterations).1
  else
    let x0 :=
      match o.guess with
      | none =>
          if gt xMin ninf then
            if lt xMax inf then fin ⟨1, 2⟩ * (xMin + xMax) else xMin
          else
            if lt xMax inf then xMax else fin ⟨0, 1⟩
      | some g => g
    let b := bracketMinimum f x0 dx xMin xMax
    if b.1.isNan || b.2.isNan then some nan
    else (goldenSectionMinimize phi f b.1 b.2 tolerance maxIterations).1

/-!
## Powell minimizer

Translated from `minimizePowell` (`src/unnamed/part_000`).  The 1D line
minimizer it imports is passed as a parameter `lineMin` (the import boundary of
the source), and `Math.sqrt` as a parameter `sqrtFn`; the concrete pipeline
instantiates both.  Besides the `status.points` trace that the source records,
the embedding keeps two ghost logs that only observe the run: a record per 1D
line-search invocation and a record per outer-loop iteration.
-/

/-- The options record of `minimizePowell` (`PowellOptions`); `none` is an
absent field, and a `none` entry inside `bounds` is a `null` dimension. -/
structure PowellOptions where
  maxIter : Option ℕ := none
  maxIterLinearSearch : Option ℕ := none
  lineTolerance : Option JsNum := none
  tolerance : Option JsNum := none
  bounds : Option (List (Option (JsNum × JsNum))) := none

/-- Ghost record of one 1D line-search invocation: the direction set and the
point at the moment of the call, the `status.points` trace accumulated so far,
whether the call is one of the `n` in-cycle searches or the extra search along
the new direction, and the returned step (`none` is the source's
`undefined`). -/
structure SearchRec where
  dirs : List (List JsNum)
  point : List JsNum
  pts : List (List JsNum)
  inCycle : Bool
  tmin : Option JsNum
deriving DecidableEq, Repr

/-- The mutable state of a `minimizePowell` run: the solution vector `p`, the
direction set `u`, the previous cycle's step length `perr`, the
`status.points` trace, and the two ghost logs. -/
structure PState where
  p : List JsNum
  u : List (List JsNum)
  perr : JsNum
  points : List (List JsNum)
  searches : List SearchRec
  iterLog : List (ℕ × List (List JsNum))
deriving Repr

/-- The fixed data of a `minimizePowell` run. -/
structure PCtx where
  lineMin : (JsNum → JsNum) → JsNum → JsNum → JsNum → JsNum → ℕ → Option JsNum
  sqrtFn : JsNum → JsNum
  f : List JsNum → JsNum
  n : ℕ
  hasBounds : Bool
  bounds : List (Option (JsNum × JsNum))
  dx : JsNum
  tol : JsNum
  tol1d : JsNum
  maxILS : ℕ

/-- The standard orthonormal basis the source builds with
`u[i][j] = i === j ? 1 : 0`. -/
def stdBasis (n : ℕ) : List (List JsNum) :=
  (List.range n).map fun i => (List.range n).map fun j =>
    if i = j then fin ⟨1, 1⟩ else fin ⟨0, 1⟩

/-- The `constrain` helper of `minimizePowell`: clamp each coordinate against
its finite bounds (`x[i] = Math.max(b0, x[i])`, `x[i] = Math.min(b1, x[i])`).
An out-of-range bounds entry is `none` here. -/
def constrainP (bounds : List (Option (JsNum × JsNum))) (x : List JsNum) :
    List JsNum :=
  x.mapIdx fun i xi =>
    match bounds.getD i none with
    | none => xi
    | some (lo, hi) =>
        let xi := if lo.isFin then max lo xi else xi
        if hi.isFin then min hi xi else xi

/-- The `bound` closure of `minimizePowell`: starting from `(-∞, ∞)`,
accumulate for every dimension `j` with a non-null bounds entry and
`ui[j] !== 0` the step quotients `(b - p[j]) / ui[j]`, using `Math.max` on the
lower accumulator and `Math.min` on the upper one when `ui[j] > 0` and the
swapped operations otherwise, exactly as the source does.  Without a `bounds`
option the closure returns `(-∞, ∞)`. -/
def boundStep (hasBounds : Bool) (bounds : List (Option (JsNum × JsNum)))
    (n : ℕ) (p ui : List JsNum) : JsNum × JsNum :=
  if hasBounds then
    (List.range n).foldl
      (fun lu j =>
        match bounds.getD j none with
        | none => lu
        | some (lo, hi) =>
            let uij := ui.getD j nan
            if seq uij (fin ⟨0, 1⟩) then lu
            else
              let l :=
                if lo.isFin then
                  (if gt uij (fin ⟨0, 1⟩) then max else min) lu.1
                    ((lo - p.getD j nan) / uij)
                else lu.1
              let u :=
                if hi.isFin then
                  (if gt uij (fin ⟨0, 1⟩) then min else max) lu.2
                    ((hi - p.getD j nan) / uij)
                else lu.2
              (l, u))
      (ninf, inf)
  else (ninf, inf)

/-- The evaluation closure `fi`: `fi(t) = f(p + t * ui)` over the `n`
coordinates, the working point being rebuilt on every call. -/
def fiFn (f : List JsNum → JsNum) (n : ℕ) (p ui : List JsNum) (t : JsNum) :
    JsNum :=
  f ((List.range n).map fun i => p.getD i nan + ui.getD i nan * t)

/-- The coordinate update `p[j] += tmin * ui[j]` over the `n` coordinates. -/
def updateP (n : ℕ) (p ui : List JsNum) (t : JsNum) : List JsNum :=
  (List.range n).map fun j => p.getD j nan + t * ui.getD j nan

/-- Outcome of the in-cycle `for` loop over the `n` directions: an early
`return` out of `minimizePowell`, or fall-through to the cycle tail. -/
inductive CycleRes where
  | ret (r : Option (List JsNum)) (s : PState)
  | cont (s : PState)

/-- The body of the in-cycle `for (i = 0; i < n; i++)` loop of
`minimizePowell`: bound the step interval along `u[i]`, run the 1D line
minimizer, return `undefined` on an `undefined` step, return the current point
on a step strictly equal to `0`, otherwise update and re-clamp the point and
record it.  The first argument is the number of directions still to process
(`n - i`). -/
def cycleGo (c : PCtx) : ℕ → ℕ → PState → CycleRes
  | 0, _, s => .cont s
  | k + 1, i, s =>
      let ui := s.u.getD i []
      let tl := boundStep c.hasBounds c.bounds c.n s.p ui
      let tmin := c.lineMin (fiFn c.f c.n s.p ui) tl.1 tl.2 c.dx c.tol1d c.maxILS
      let s1 := { s with searches := s.searches ++ [⟨s.u, s.p, s.points, true, tmin⟩] }
      match tmin with
      | none => .ret none s1
      | some t =>
          if seq t (fin ⟨0, 1⟩) then .ret (some s1.p) s1
          else
            let p2 := constrainP c.bounds (updateP c.n s1.p ui t)
            cycleGo c k (i + 1) { s1 with p := p2, points := s1.points ++ [p2] }

/-- The extra line search of one outer iteration of `minimizePowell`, along
the freshly appended direction `un` (already part of the direction set of
`s4`): run the 1D line minimizer, return `undefined` on an `undefined` step
and the current point on a step strictly equal to zero or non-finite,
otherwise update and re-clamp the point, record it, and either stop (when the
ratio of this step length to the previous iteration's is below the tolerance)
or continue the outer loop through `recur`. -/
def powellExtra (c : PCtx) (recur : PState → Option (List JsNum) × PState)
    (s4 : PState) (un : List JsNum) : Option (List JsNum) × PState :=
  let tl := boundStep c.hasBounds c.bounds c.n s4.p un
  let tmin := c.lineMin (fiFn c.f c.n s4.p un) tl.1 tl.2 c.dx c.tol1d c.maxILS
  let s5 := { s4 with searches := s4.searches ++ [⟨s4.u, s4.p, s4.points, false, tmin⟩] }
  match tmin with
  | none => (none, s5)
  | some t =>
      if seq t (fin ⟨0, 1⟩) || !t.isFin then (some s5.p, s5)
      else
        let du := (List.range c.n).map fun j => t * un.getD j nan
        let err0 := du.foldl (fun acc x => acc + x * x) (fin ⟨0, 1⟩)
        let p2 := constrainP c.bounds
          ((List.range c.n).map fun j => s5.p.getD j nan + du.getD j nan)
        let s6 := { s5 with p := p2, points := s5.points ++ [p2] }
        let err1 := c.sqrtFn err0
        if lt (err1 / s6.perr) c.tol then (some s6.p, s6)
        else recur { s6 with perr := err1 }

/-- The tail of one outer iteration of `minimizePowell`, after the in-cycle
`for` loop: an early `return` propagates; otherwise drop the oldest direction
(`u.shift()`), build the net displacement `p - p0`, return the current point
if nothing moved (`sum > 0` fails), normalize the displacement, append it to
the direction set, and run the extra search along it (see `powellExtra`);
`recur` continues the outer loop. -/
def powellTail (c : PCtx) (recur : PState → Option (List JsNum) × PState)
    (p0 : List JsNum) : CycleRes → Option (List JsNum) × PState
  | .ret r s2 => (r, s2)
  | .cont s2 =>
      let s3 := { s2 with u := s2.u.tail }
      let un0 := (List.range c.n).map fun j => s3.p.getD j nan - p0.getD j nan
      let sum0 := un0.foldl (fun acc x => acc + x * x) (fin ⟨0, 1⟩)
      let sum1 := c.sqrtFn sum0
      if gt sum1 (fin ⟨0, 1⟩) then
        let un := un0.map fun x => x / sum1
        powellExtra c recur { s3 with u := s3.u ++ [un] } un
      else (some s3.p, s3)

/-- The outer `while (++iter < maxIter)` loop of `minimizePowell`.  The fuel is
`maxIter - iter`, so fuel `0` is the failed counter test (return the current
point).  Each iteration: reset the direction set to the standard basis when
`iter % n === 0`, remember `p0`, run the `n` in-cycle searches, then the
iteration tail (see `powellTail`). -/
def powellLoop (c : PCtx) : ℕ → ℕ → PState → Option (List JsNum) × PState
  | 0, _, s => (some s.p, s)
  | fuel + 1, iter, s =>
      let s0 := if c.n ≠ 0 ∧ iter % c.n = 0 then { s with u := stdBasis c.n } else s
      let s1 := { s0 with iterLog := s0.iterLog ++ [(iter, s0.u)] }
      powellTail c (powellLoop c fuel (iter + 1)) s1.p (cycleGo c c.n 0 s1)

/-- `minimizePowell(f, x0, options, status)`, parametric in the imported 1D
line minimizer and in `Math.sqrt`: read the options with their source
defaults, clamp the starting point into bounds, record it, and run the outer
loop from `iter = 1` with the direction set initialized to the standard
basis.  Returns the result (`none` is the source's `undefined`) together with
the final state (whose `points` field is the `status.points` trace). -/
def minimizePowellWith
    (lineMin : (JsNum → JsNum) → JsNum → JsNum → JsNum → JsNum → ℕ → Option JsNum)
    (sqrtFn : JsNum → JsNum) (f : List JsNum → JsNum) (x0 : List JsNum)
    (opts : PowellOptions) : Option (List JsNum) × PState :=
  let n := x0.length
  let bounds := opts.bounds.getD []
  let tol := opts.tolerance.getD (fin ⟨1, 100000000⟩)
  let tol1d := opts.lineTolerance.getD tol * fin ⟨1, 10⟩
  let maxIter := opts.maxIter.getD 20
  let c : PCtx :=
    ⟨lineMin, sqrtFn, f, n, opts.bounds.isSome, bounds, fin ⟨1, 10⟩, tol, tol1d,
      opts.maxIterLinearSearch.getD 100⟩
  let p := constrainP bounds x0
  powellLoop c (maxIter - 1) 1 ⟨p, stdBasis n, fin ⟨0, 1⟩, [p], [], []⟩

/-- The concrete 1D line minimizer exactly as `minimizePowell` invokes it:
`minimizeGoldenSection1D` with the bound interval, the initial increment `dx`,
the line tolerance and the inner iteration budget as options. -/
def pipelineLineMin (phi : Frac) (fi : JsNum → JsNum) (lower upper dx tol : JsNum)
    (maxIterations : ℕ) : Option JsNum :=
  minimizeGoldenSection1D phi fi
    { tolerance := some tol, initialIncrement := some dx,
      lowerBound := some lower, upperBound := some upper,
      maxIterations := some maxIterations }

/-- The full `minimizePowell` pipeline. -/
def minimizePowell (phi : Frac) (f : List JsNum → JsNum) (x0 : List JsNum)
    (opts : PowellOptions) : Option (List JsNum) × PState :=
  minimizePowellWith (pipelineLineMin phi) JsNum.sqrt f x0 opts

/-- Follows the spec's words (for claim C1), not the source: the tightest
feasible step interval, intersecting over every dimension `j` with a non-null
bounds entry and `ui[j] !== 0` the feasible range of
`bounds[j][0] <= p[j] + ui[j] * t <= bounds[j][1]`.  For `ui[j] > 0` the lower
coordinate bound gives a lower step limit and the upper coordinate bound an
upper step limit; for `ui[j] < 0` the roles swap: the lower coordinate bound
limits the step from above and the upper coordinate bound from below. -/
def boundTightest (bounds : List (Option (JsNum × JsNum))) (n : ℕ)
    (p ui : List JsNum) : JsNum × JsNum :=
  (List.range n).foldl
    (fun lu j =>
      match bounds.getD j none with
      | none => lu
      | some (lo, hi) =>
          let uij := ui.getD j nan
          if seq uij (fin ⟨0, 1⟩) then lu
          else if gt uij (fin ⟨0, 1⟩) then
            (if lo.isFin then max lu.1 ((lo - p.getD j nan) / uij) else lu.1,
             if hi.isFin then min lu.2 ((hi - p.getD j nan) / uij) else lu.2)
          else
            (if hi.isFin then max lu.1 ((hi - p.getD j nan) / uij) else lu.1,
             if lo.isFin then min lu.2 ((lo - p.getD j nan) / uij) else lu.2))
    (ninf, inf)

/-- The objective of the concrete failing runs below:
`f = v => -v[0] * v[0]`, unbounded below along the first coordinate. -/
def negSquare0 : List JsNum → JsNum := fun v => -(v.getD 0 nan * v.getD 0 nan)

/-- A value of the golden ratio parameter for the concrete runs below: the
Fibonacci convergent `377/610` of the source's irrational
`2 / (1 + Math.sqrt(5))`.  None of the concrete facts proved at it depend on
the value. -/
def phiRat : Frac := ⟨377, 610⟩

/-- The options of the concrete bounded failing run for claim C5: the first
dimension unbounded (`null`), the second bounded to `[0, 1]`, and a small
inner line-search budget to keep the run short. -/
def optsC5 : PowellOptions :=
  { maxIterLinearSearch := some 2,
    bounds := some [none, some (fin ⟨0, 1⟩, fin ⟨1, 1⟩)] }

/-- An objective that is NaN at the first golden-section probe of the unit
interval for the ratio `377/610` and zero elsewhere (for the second
counterexample run of claim C4). -/
def nanAtFirstProbe : JsNum → JsNum :=
  fun x => if seq x (fin ⟨233, 610⟩) then nan else fin ⟨0, 1⟩

/-- The state carried by either outcome of the in-cycle loop. -/
def CycleRes.st : CycleRes → PState
  | .ret _ s => s
  | .cont s => s

/-- The early return of the in-cycle loop, if any. -/
def CycleRes.earlyRet : CycleRes → Option (Option (List JsNum))
  | .ret r _ => some r
  | .cont _ => none

/-- An in-cycle line search whose recorded step is strictly equal to zero
(the `tmin === 0` test of the source). -/
def isZeroStep (sr : SearchRec) : Prop :=
  sr.inCycle = true ∧ ∃ t, sr.tmin = some t ∧ seq t (fin ⟨0, 1⟩) = true

/-- The invariant of an iteration-log entry for claim C6: the recorded
direction set has exactly `n` members, and on an iteration index divisible by
`n` it is the standard basis. -/
def dirInv (n : ℕ) (e : ℕ × List (List JsNum)) : Prop :=
  e.2.length = n ∧ (e.1 % n = 0 → e.2 = stdBasis n)

/-!
## Helper lemmas
-/

/-- C3: if `goldenSectionMinimize` stops because the iteration budget is
exhausted (the pre-incremented counter reached `maxIterations`) before the
interval width shrank to at most the tolerance, it returns the midpoint
`0.5 * (xU + xL)` of the remaining interval as a numeric best estimate and
sets `status.converged = false`: a returned partial result, not a failure
value. -/
theorem goldenSection_exhausted_midpoint (phi : Frac) (f : JsNum → JsNum)
    (xL xU tol : JsNum) (m : ℕ)
    (hex : (gssRun phi f xL xU tol m).iteration = m)
    (_hw : gt (abs ((gssRun phi f xL xU tol m).xU - (gssRun phi f xL xU tol m).xL))
        tol = true) :
    (goldenSectionMinimize phi f xL xU tol m).1
        = some (fin ⟨1, 2⟩ * ((gssRun phi f xL xU tol m).xU
            + (gssRun phi f xL xU tol m).xL))
      ∧ (goldenSectionMinimize phi f xL xU tol m).2.converged = false := by
  have hps : goldenSectionMinimize phi f xL xU tol m
      = gssPost f xL xU m (gssRun phi f xL xU tol m) := rfl
  rw [hps]
  unfold gssPost
  rw [if_pos hex]
  exact ⟨rfl, rfl⟩

theorem goldenSection_exhausted_midpoint_witness :
    (goldenSectionMinimize phiRat (fun _ => fin ⟨0, 1⟩) (fin ⟨0, 1⟩) (fin ⟨1, 1⟩)
          (fin ⟨0, 1⟩) 1).1
        = some (fin ⟨1, 2⟩
            * ((gssRun phiRat (fun _ => fin ⟨0, 1⟩) (fin ⟨0, 1⟩) (fin ⟨1, 1⟩)
                  (fin ⟨0, 1⟩) 1).xU
              + (gssRun phiRat (fun _ => fin ⟨0, 1⟩) (fin ⟨0, 1⟩) (fin ⟨1, 1⟩)
                  (fin ⟨0, 1⟩) 1).xL))
      ∧ (goldenSectionMinimize phiRat (fun _ => fin ⟨0, 1⟩) (fin ⟨0, 1⟩) (fin ⟨1, 1⟩)
          (fin ⟨0, 1⟩) 1).2.converged = false :=
  goldenSection_exhausted_midpoint phiRat _ _ _ _ _ (by decide) (by decide)

/-- C4, counterexample: the claim says that a NaN probe evaluation at any
point during the search makes `goldenSectionMinimize` return an undefined
(no-answer) result.  Two concrete runs refute it.  First, with `f ≡ NaN` and
`maxIterations = 1` both probes evaluate to NaN, yet the budget is exhausted
and the numeric midpoint `1/2` is returned.  Second, with the objective that
is NaN exactly at the initial probe `x1 = xU - phi * (xU - xL) = 233/610` and
zero elsewhere, the probe evaluates to NaN during the search, but the NaN is
discarded when the interval shifts, the loop stops on the width test, and the
numeric point `987/1220` is returned. -/
theorem goldenSection_nan_probe_counterexample :
    (goldenSectionMinimize phiRat (fun _ => nan) (fin ⟨0, 1⟩) (fin ⟨1, 1⟩)
          (fin ⟨0, 1⟩) 1).1 = some (fin ⟨1, 2⟩)
      ∧ (gssRun phiRat (fun _ => nan) (fin ⟨0, 1⟩) (fin ⟨1, 1⟩) (fin ⟨0, 1⟩) 1).f1.isNan
          = true
      ∧ (goldenSectionMinimize phiRat nanAtFirstProbe (fin ⟨0, 1⟩) (fin ⟨1, 1⟩)
          (fin ⟨1, 2⟩) 10).1 = some (fin ⟨987, 1220⟩)
      ∧ (nanAtFirstProbe (fin ⟨1, 1⟩ - fin phiRat * (fin ⟨1, 1⟩ - fin ⟨0, 1⟩))).isNan
          = true := by
  decide

/-- C4, amended: if the loop stopped with the width test (the counter did not
reach `maxIterations`) and either of the two final probe values is NaN, then
`goldenSectionMinimize` returns the undefined result `none` and sets
`status.converged = false`.  (When the budget is exhausted the midpoint is
returned even over NaN probes, and a NaN probe that is discarded by a later
interval shift does not fail the search.) -/
theorem goldenSection_nan_final_probe_fails (phi : Frac) (f : JsNum → JsNum)
    (xL xU tol : JsNum) (m : ℕ)
    (hne : (gssRun phi f xL xU tol m).iteration ≠ m)
    (hnan : ((gssRun phi f xL xU tol m).f2.isNan
        || (gssRun phi f xL xU tol m).f1.isNan) = true) :
    (goldenSectionMinimize phi f xL xU tol m).1 = none
      ∧ (goldenSectionMinimize phi f xL xU tol m).2.converged = false := by
  have hps : goldenSectionMinimize phi f xL xU tol m
      = gssPost f xL xU m (gssRun phi f xL xU tol m) := rfl
  rw [hps]
  unfold gssPost
  rw [if_neg hne, if_pos hnan]
  exact ⟨rfl, rfl⟩

theorem goldenSection_nan_final_probe_fails_witness :
    (goldenSectionMinimize phiRat (fun _ => nan) (fin ⟨0, 1⟩) (fin ⟨1, 1⟩)
          (fin ⟨1, 1⟩) 5).1 = none
      ∧ (goldenSectionMinimize phiRat (fun _ => nan) (fin ⟨0, 1⟩) (fin ⟨1, 1⟩)
          (fin ⟨1, 1⟩) 5).2.converged = false :=
  goldenSection_nan_final_probe_fails phiRat _ _ _ _ _ (by decide) (by decide)

/-- C8: when `goldenSectionMinimize` converges (`status.converged = true`),
with `fF` the final interior estimate (the average of the two final probe
values): if the value at the original lower endpoint is strictly less than
`fF` the returned argmin is that endpoint; otherwise if the value at the
original upper endpoint is strictly less than `fF` the returned argmin is that
endpoint; otherwise the interior midpoint is returned. -/
theorem goldenSection_endpoint_comparison (phi : Frac) (f : JsNum → JsNum)
    (xL xU tol : JsNum) (m : ℕ)
    (hconv : (goldenSectionMinimize phi f xL xU tol m).2.converged = true) :
    (lt (f xL) (fin ⟨1, 2⟩ * ((gssRun phi f xL xU tol m).f1
          + (gssRun phi f xL xU tol m).f2)) = true →
        (goldenSectionMinimize phi f xL xU tol m).1 = some xL)
    ∧ (lt (f xL) (fin ⟨1, 2⟩ * ((gssRun phi f xL xU tol m).f1
          + (gssRun phi f xL xU tol m).f2)) = false →
        lt (f xU) (fin ⟨1, 2⟩ * ((gssRun phi f xL xU tol m).f1
          + (gssRun phi f xL xU tol m).f2)) = true →
        (goldenSectionMinimize phi f xL xU tol m).1 = some xU)
    ∧ (lt (f xL) (fin ⟨1, 2⟩ * ((gssRun phi f xL xU tol m).f1
          + (gssRun phi f xL xU tol m).f2)) = false →
        lt (f xU) (fin ⟨1, 2⟩ * ((gssRun phi f xL xU tol m).f1
          + (gssRun phi f xL xU tol m).f2)) = false →
        (goldenSectionMinimize phi f xL xU tol m).1
          = some (fin ⟨1, 2⟩ * ((gssRun phi f xL xU tol m).xU
              + (gssRun phi f xL xU tol m).xL))) := by
  have hps : goldenSectionMinimize phi f xL xU tol m
      = gssPost f xL xU m (gssRun phi f xL xU tol m) := rfl
  rw [hps] at hconv ⊢
  unfold gssPost at hconv ⊢
  by_cases hit : (gssRun phi f xL xU tol m).iteration = m
  · rw [if_pos hit] at hconv
    simp at hconv
  · rw [if_neg hit] at hconv ⊢
    by_cases hnan : ((gssRun phi f xL xU tol m).f2.isNan
        || (gssRun phi f xL xU tol m).f1.isNan) = true
    · rw [if_pos hnan] at hconv
      simp at hconv
    · rw [if_neg hnan] at hconv ⊢
      refine ⟨?_, ?_, ?_⟩
      · intro h1
        rw [if_pos h1]
      · intro h1 h2
        rw [if_neg (by simp [h1]), if_pos h2]
      · intro h1 h2
        rw [if_neg (by simp [h1]), if_neg (by simp [h2])]

theorem goldenSection_endpoint_comparison_witness :
    (goldenSectionMinimize phiRat (fun _ => fin ⟨0, 1⟩) (fin ⟨0, 1⟩) (fin ⟨1, 1⟩)
          (fin ⟨2, 1⟩) 5).1
        = some (fin ⟨1, 2⟩
            * ((gssRun phiRat (fun _ => fin ⟨0, 1⟩) (fin ⟨0, 1⟩) (fin ⟨1, 1⟩)
                  (fin ⟨2, 1⟩) 5).xU
              + (gssRun phiRat (fun _ => fin ⟨0, 1⟩) (fin ⟨0, 1⟩) (fin ⟨1, 1⟩)
                  (fin ⟨2, 1⟩) 5).xL)) :=
  (goldenSection_endpoint_comparison phiRat (fun _ => fin ⟨0, 1⟩) (fin ⟨0, 1⟩)
      (fin ⟨1, 1⟩) (fin ⟨2, 1⟩) 5 (by decide)).2.2 (by decide) (by decide)

/-- C1: the claim says the `bound` helper computes the tightest feasible step
interval, including for negative direction components.  At the current point
`p = [0]`, direction `u = [-1]` and bounds `[[-1, 1]]` the feasible step range
is `[-1, 1]` (computed by the definition that follows the spec's words), but
the source helper swaps `Math.max` and `Math.min` for `u[j] < 0`, so the
finite bounds never constrain the accumulators and it returns `(-∞, ∞)`; the
step `t = 2` is admitted by the returned interval although the resulting point
`p + 2 * u = [-2]` violates the lower coordinate bound. -/
theorem boundStep_ignores_negative_direction :
    boundStep true [some (fin ⟨-1, 1⟩, fin ⟨1, 1⟩)] 1 [fin ⟨0, 1⟩] [fin ⟨-1, 1⟩]
        = (ninf, inf)
      ∧ boundTightest [some (fin ⟨-1, 1⟩, fin ⟨1, 1⟩)] 1 [fin ⟨0, 1⟩] [fin ⟨-1, 1⟩]
        = (fin ⟨-1, 1⟩, fin ⟨1, 1⟩)
      ∧ boundStep true [some (fin ⟨-1, 1⟩, fin ⟨1, 1⟩)] 1 [fin ⟨0, 1⟩] [fin ⟨-1, 1⟩]
        ≠ boundTightest [some (fin ⟨-1, 1⟩, fin ⟨1, 1⟩)] 1 [fin ⟨0, 1⟩] [fin ⟨-1, 1⟩]
      ∧ le ninf (fin ⟨2, 1⟩) = true
      ∧ le (fin ⟨2, 1⟩) inf = true
      ∧ le (fin ⟨-1, 1⟩) (fin ⟨0, 1⟩ + fin ⟨-1, 1⟩ * fin ⟨2, 1⟩) = false := by
  decide

/-- C2: the claim says a failed 1D line search makes `minimizePowell` return
no point at all, never a numeric vector and never one containing NaN.  At
`f(v) = -v[0] * v[0]` from `x0 = [0]` with default options the only line
search fails by bracketing (`-t^2` has no interior minimum), so
`minimizeGoldenSection1D` returns its NaN failure sentinel; the
`tmin === undefined` test of `minimizePowell` does not catch NaN, the update
`p[j] += tmin * ui[j]` poisons the point, the zero-displacement branch then
returns it, and `minimizePowell` returns the numeric vector `[NaN]`. -/
theorem minimizePowell_returns_nan_vector_on_bracket_failure :
    (minimizePowell phiRat negSquare0 [fin ⟨0, 1⟩] {}).1 = some [JsNum.nan]
      ∧ (minimizePowell phiRat negSquare0 [fin ⟨0, 1⟩] {}).2.searches.map SearchRec.tmin
        = [some JsNum.nan] := by
  decide

/-- C5: the claim says every point recorded in the `status.points` trace
satisfies every finite box bound.  With `f(v) = -v[0] * v[0]`, `x0 = [0, 0]`,
the first dimension unbounded and the second bounded to `[0, 1]`, the line
search along the first basis direction fails by bracketing and returns NaN;
the NaN step poisons both coordinates, `constrain` maps NaN through
`Math.max`/`Math.min` to NaN, and the recorded point `[NaN, NaN]` does not
satisfy the finite bounds of dimension 1 (`0 <= NaN <= 1` is false in JS). -/
theorem powell_points_trace_nan_violates_bounds :
    (minimizePowell phiRat negSquare0 [fin ⟨0, 1⟩, fin ⟨0, 1⟩] optsC5).2.points.getD 1 []
        = [JsNum.nan, JsNum.nan]
      ∧ (optsC5.bounds.getD []).getD 1 none = some (fin ⟨0, 1⟩, fin ⟨1, 1⟩)
      ∧ le (fin ⟨0, 1⟩) JsNum.nan = false
      ∧ le JsNum.nan (fin ⟨1, 1⟩) = false := by
  decide

/-!
## Claims C6, C7, C10: invariants of the Powell loop
-/

theorem cycleGo_st_u (c : PCtx) :
    ∀ (k i : ℕ) (s : PState), (cycleGo c k i s).st.u = s.u := by
  intro k
  induction k with
  | zero => intro i s; rfl
  | succ k ih =>
      intro i s
      simp only [cycleGo]
      split
      · rfl
      · split
        · rfl
        · exact ih (i + 1) _

theorem cycleGo_st_iterLog (c : PCtx) :
    ∀ (k i : ℕ) (s : PState), (cycleGo c k i s).st.iterLog = s.iterLog := by
  intro k
  induction k with
  | zero => intro i s; rfl
  | succ k ih =>
      intro i s
      simp only [cycleGo]
      split
      · rfl
      · split
        · rfl
        · exact ih (i + 1) _

theorem cycleGo_st_searches (c : PCtx) :
    ∀ (k i : ℕ) (s : PState), ∀ sr ∈ (cycleGo c k i s).st.searches,
      sr ∈ s.searches ∨ (sr.dirs = s.u ∧ sr.inCycle = true) := by
  intro k
  induction k with
  | zero => intro i s sr h; exact Or.inl h
  | succ k ih =>
      intro i s sr h
      simp only [cycleGo] at h
      split at h
      · simp only [CycleRes.st] at h
        rcases List.mem_append.1 h with h1 | h1
        · exact Or.inl h1
        · rw [List.mem_singleton] at h1
          subst h1
          exact Or.inr ⟨rfl, rfl⟩
      · split at h
        · simp only [CycleRes.st] at h
          rcases List.mem_append.1 h with h1 | h1
          · exact Or.inl h1
          · rw [List.mem_singleton] at h1
            subst h1
            exact Or.inr ⟨rfl, rfl⟩
        · rcases ih (i + 1) _ sr h with h1 | h1
          · rcases List.mem_append.1 h1 with h2 | h2
            · exact Or.inl h2
            · rw [List.mem_singleton] at h2
              subst h2
              exact Or.inr ⟨rfl, rfl⟩
          · exact Or.inr h1

theorem cycleGo_zeroStop (c : PCtx) :
    ∀ (k i : ℕ) (s : PState),
      (∀ sr ∈ s.searches, ¬ isZeroStep sr) →
      ∀ sr ∈ (cycleGo c k i s).st.searches, isZeroStep sr →
        (cycleGo c k i s).earlyRet = some (some sr.point)
          ∧ (cycleGo c k i s).st.searches.getLast? = some sr
          ∧ (cycleGo c k i s).st.points = sr.pts := by
  intro k
  induction k with
  | zero => intro i s hprev sr h hz; exact absurd hz (hprev sr h)
  | succ k ih =>
      intro i s hprev
      simp only [cycleGo]
      cases hM : c.lineMin (fiFn c.f c.n s.p (s.u.getD i []))
          (boundStep c.hasBounds c.bounds c.n s.p (s.u.getD i [])).1
          (boundStep c.hasBounds c.bounds c.n s.p (s.u.getD i [])).2
          c.dx c.tol1d c.maxILS with
      | none =>
          intro sr h hz
          simp only [CycleRes.st] at h
          rcases List.mem_append.1 h with h1 | h1
          · exact absurd hz (hprev sr h1)
          · rw [List.mem_singleton] at h1
            subst h1
            rcases hz with ⟨_, t, ht, _⟩
            cases ht
      | some t =>
          dsimp only
          by_cases hz0 : seq t (fin ⟨0, 1⟩) = true
          · rw [if_pos hz0]
            intro sr h hz
            simp only [CycleRes.st] at h ⊢
            rcases List.mem_append.1 h with h1 | h1
            · exact absurd hz (hprev sr h1)
            · rw [List.mem_singleton] at h1
              subst h1
              refine ⟨rfl, ?_, rfl⟩
              exact List.getLast?_concat _
          · rw [if_neg hz0]
            apply ih
            intro sr h1
            rcases List.mem_append.1 h1 with h2 | h2
            · exact hprev sr h2
            · rw [List.mem_singleton] at h2
              subst h2
              rintro ⟨_, t2, ht2, hseq2⟩
              cases ht2
              exact hz0 hseq2

theorem powellExtra_zeroStop (c : PCtx)
    (recur : PState → Option (List JsNum) × PState) (s4 : PState)
    (un : List JsNum)
    (hs4 : ∀ sr ∈ s4.searches, ¬ isZeroStep sr)
    (hrec : ∀ s : PState, (∀ sr ∈ s.searches, ¬ isZeroStep sr) →
      ∀ sr ∈ (recur s).2.searches, isZeroStep sr →
        (recur s).1 = some sr.point
          ∧ (recur s).2.searches.getLast? = some sr
          ∧ (recur s).2.points = sr.pts) :
    ∀ sr ∈ (powellExtra c recur s4 un).2.searches, isZeroStep sr →
      (powellExtra c recur s4 un).1 = some sr.point
        ∧ (powellExtra c recur s4 un).2.searches.getLast? = some sr
        ∧ (powellExtra c recur s4 un).2.points = sr.pts := by
  have hext : ∀ tmin : Option JsNum,
      ∀ sr ∈ s4.searches ++ [(⟨s4.u, s4.p, s4.points, false, tmin⟩ : SearchRec)],
        ¬ isZeroStep sr := by
    intro tmin sr h
    rcases List.mem_append.1 h with h1 | h1
    · exact hs4 sr h1
    · rw [List.mem_singleton] at h1
      subst h1
      rintro ⟨hc, _⟩
      cases hc
  simp only [powellExtra]
  cases hM : c.lineMin (fiFn c.f c.n s4.p un)
      (boundStep c.hasBounds c.bounds c.n s4.p un).1
      (boundStep c.hasBounds c.bounds c.n s4.p un).2 c.dx c.tol1d c.maxILS with
  | none =>
      dsimp only
      intro sr h hz
      exact absurd hz (hext none sr h)
  | some t =>
      dsimp only
      by_cases ht : (seq t (fin ⟨0, 1⟩) || !t.isFin) = true
      · rw [if_pos ht]
        intro sr h hz
        exact absurd hz (hext (some t) sr h)
      · rw [if_neg ht]
        by_cases hrat : lt (c.sqrtFn (((List.range c.n).map fun j =>
            t * un.getD j nan).foldl (fun acc x => acc + x * x) (fin ⟨0, 1⟩))
            / s4.perr) c.tol = true
        · rw [if_pos hrat]
          intro sr h hz
          exact absurd hz (hext (some t) sr h)
        · rw [if_neg hrat]
          apply hrec
          intro sr h
          exact hext (some t) sr h

theorem powellTail_zeroStop (c : PCtx)
    (recur : PState → Option (List JsNum) × PState) (p0 : List JsNum)
    (cy : CycleRes)
    (hcy : ∀ sr ∈ cy.st.searches, isZeroStep sr →
      cy.earlyRet = some (some sr.point)
        ∧ cy.st.searches.getLast? = some sr ∧ cy.st.points = sr.pts)
    (hrec : ∀ s : PState, (∀ sr ∈ s.searches, ¬ isZeroStep sr) →
      ∀ sr ∈ (recur s).2.searches, isZeroStep sr →
        (recur s).1 = some sr.point
          ∧ (recur s).2.searches.getLast? = some sr
          ∧ (recur s).2.points = sr.pts) :
    ∀ sr ∈ (powellTail c recur p0 cy).2.searches, isZeroStep sr →
      (powellTail c recur p0 cy).1 = some sr.point
        ∧ (powellTail c recur p0 cy).2.searches.getLast? = some sr
        ∧ (powellTail c recur p0 cy).2.points = sr.pts := by
  cases cy with
  | ret r s2 =>
      intro sr h hz
      have h3 := hcy sr h hz
      simp only [CycleRes.earlyRet, Option.some.injEq] at h3
      exact ⟨h3.1, h3.2.1, h3.2.2⟩
  | cont s2 =>
      have hnz : ∀ sr ∈ s2.searches, ¬ isZeroStep sr := by
        intro sr h hz
        have h3 := hcy sr h hz
        simp only [CycleRes.earlyRet] at h3
        exact Option.noConfusion h3.1
      simp only [powellTail]
      by_cases hsum : gt (c.sqrtFn (((List.range c.n).map fun j =>
          s2.p.getD j nan - p0.getD j nan).foldl (fun acc x => acc + x * x)
          (fin ⟨0, 1⟩))) (fin ⟨0, 1⟩) = true
      · rw [if_pos hsum]
        exact powellExtra_zeroStop c recur _ _ hnz hrec
      · rw [if_neg hsum]
        intro sr h hz
        exact absurd hz (hnz sr h)

/-- C7 at the level of the outer loop: if an in-cycle line search recorded in
the log returned a step strictly equal to zero, the loop's result is the point
at that search, that search is the last one recorded, and the points trace is
the one at that search. -/
theorem powellLoop_zeroStop (c : PCtx) :
    ∀ (fuel iter : ℕ) (s : PState),
      (∀ sr ∈ s.searches, ¬ isZeroStep sr) →
      ∀ sr ∈ (powellLoop c fuel iter s).2.searches, isZeroStep sr →
        (powellLoop c fuel iter s).1 = some sr.point
          ∧ (powellLoop c fuel iter s).2.searches.getLast? = some sr
          ∧ (powellLoop c fuel iter s).2.points = sr.pts := by
  intro fuel
  induction fuel with
  | zero => intro iter s hprev sr h hz; exact absurd hz (hprev sr h)
  | succ fuel ih =>
      intro iter s hprev
      have hse : (if c.n ≠ 0 ∧ iter % c.n = 0 then { s with u := stdBasis c.n } else s).searches
          = s.searches := by split <;> rfl
      simp only [powellLoop]
      apply powellTail_zeroStop
      · apply cycleGo_zeroStop
        intro sr h
        dsimp only at h
        rw [hse] at h
        exact hprev sr h
      · intro s7 hs7
        exact ih (iter + 1) s7 hs7

theorem stdBasis_length (n : ℕ) : (stdBasis n).length = n := by
  simp [stdBasis]

theorem powellExtra_dirs (c : PCtx)
    (recur : PState → Option (List JsNum) × PState) (s4 : PState)
    (un : List JsNum)
    (hu : s4.u.length = c.n)
    (hsr : ∀ sr ∈ s4.searches, sr.dirs.length = c.n)
    (hil : ∀ e ∈ s4.iterLog, dirInv c.n e)
    (hrec : ∀ s : PState, s.u.length = c.n →
      (∀ sr ∈ s.searches, sr.dirs.length = c.n) →
      (∀ e ∈ s.iterLog, dirInv c.n e) →
      (∀ sr ∈ (recur s).2.searches, sr.dirs.length = c.n)
        ∧ (∀ e ∈ (recur s).2.iterLog, dirInv c.n e)) :
    (∀ sr ∈ (powellExtra c recur s4 un).2.searches, sr.dirs.length = c.n)
      ∧ (∀ e ∈ (powellExtra c recur s4 un).2.iterLog, dirInv c.n e) := by
  have hext : ∀ tmin : Option JsNum,
      ∀ sr ∈ s4.searches ++ [(⟨s4.u, s4.p, s4.points, false, tmin⟩ : SearchRec)],
        sr.dirs.length = c.n := by
    intro tmin sr h
    rcases List.mem_append.1 h with h1 | h1
    · exact hsr sr h1
    · rw [List.mem_singleton] at h1
      subst h1
      exact hu
  simp only [powellExtra]
  cases hM : c.lineMin (fiFn c.f c.n s4.p un)
      (boundStep c.hasBounds c.bounds c.n s4.p un).1
      (boundStep c.hasBounds c.bounds c.n s4.p un).2 c.dx c.tol1d c.maxILS with
  | none => exact ⟨hext none, hil⟩
  | some t =>
      dsimp only
      by_cases ht : (seq t (fin ⟨0, 1⟩) || !t.isFin) = true
      · rw [if_pos ht]
        exact ⟨hext (some t), hil⟩
      · rw [if_neg ht]
        by_cases hrat : lt (c.sqrtFn (((List.range c.n).map fun j =>
            t * un.getD j nan).foldl (fun acc x => acc + x * x) (fin ⟨0, 1⟩))
            / s4.perr) c.tol = true
        · rw [if_pos hrat]
          exact ⟨hext (some t), hil⟩
        · rw [if_neg hrat]
          exact hrec _ hu (hext (some t)) hil

theorem powellTail_dirs (c : PCtx) (hn : 1 ≤ c.n)
    (recur : PState → Option (List JsNum) × PState) (p0 : List JsNum)
    (cy : CycleRes)
    (hu : cy.st.u.length = c.n)
    (hsr : ∀ sr ∈ cy.st.searches, sr.dirs.length = c.n)
    (hil : ∀ e ∈ cy.st.iterLog, dirInv c.n e)
    (hrec : ∀ s : PState, s.u.length = c.n →
      (∀ sr ∈ s.searches, sr.dirs.length = c.n) →
      (∀ e ∈ s.iterLog, dirInv c.n e) →
      (∀ sr ∈ (recur s).2.searches, sr.dirs.length = c.n)
        ∧ (∀ e ∈ (recur s).2.iterLog, dirInv c.n e)) :
    (∀ sr ∈ (powellTail c recur p0 cy).2.searches, sr.dirs.length = c.n)
      ∧ (∀ e ∈ (powellTail c recur p0 cy).2.iterLog, dirInv c.n e) := by
  cases cy with
  | ret r s2 => exact ⟨hsr, hil⟩
  | cont s2 =>
      simp only [CycleRes.st] at hu hsr hil
      simp only [powellTail]
      by_cases hsum : gt (c.sqrtFn (((List.range c.n).map fun j =>
          s2.p.getD j nan - p0.getD j nan).foldl (fun acc x => acc + x * x)
          (fin ⟨0, 1⟩))) (fin ⟨0, 1⟩) = true
      · rw [if_pos hsum]
        apply powellExtra_dirs
        · simp only [List.length_append, List.length_tail, List.length_singleton]
          omega
        · exact hsr
        · exact hil
        · exact hrec
      · rw [if_neg hsum]
        exact ⟨hsr, hil⟩

/-- C6 at the level of the outer loop: every recorded line search sees a
direction set of exactly `n` members, and every outer iteration starts (after
the periodic reset) with `n` directions, the standard basis whenever the
iteration index is divisible by `n`. -/
theorem powellLoop_dirs (c : PCtx) (hn : 1 ≤ c.n) :
    ∀ (fuel iter : ℕ) (s : PState),
      s.u.length = c.n →
      (∀ sr ∈ s.searches, sr.dirs.length = c.n) →
      (∀ e ∈ s.iterLog, dirInv c.n e) →
      (∀ sr ∈ (powellLoop c fuel iter s).2.searches, sr.dirs.length = c.n)
        ∧ (∀ e ∈ (powellLoop c fuel iter s).2.iterLog, dirInv c.n e) := by
  intro fuel
  induction fuel with
  | zero => intro iter s hu hsr hil; exact ⟨hsr, hil⟩
  | succ fuel ih =>
      intro iter s hu hsr hil
      have hu0 : (if c.n ≠ 0 ∧ iter % c.n = 0 then { s with u := stdBasis c.n }
          else s).u.length = c.n := by
        split
        · exact stdBasis_length c.n
        · exact hu
      have hb0 : iter % c.n = 0 → (if c.n ≠ 0 ∧ iter % c.n = 0 then
          { s with u := stdBasis c.n } else s).u = stdBasis c.n := by
        intro hmod
        rw [if_pos ⟨by omega, hmod⟩]
      have hse : (if c.n ≠ 0 ∧ iter % c.n = 0 then { s with u := stdBasis c.n }
          else s).searches = s.searches := by split <;> rfl
      have hie : (if c.n ≠ 0 ∧ iter % c.n = 0 then { s with u := stdBasis c.n }
          else s).iterLog = s.iterLog := by split <;> rfl
      simp only [powellLoop]
      apply powellTail_dirs c hn
      · rw [cycleGo_st_u]
        exact hu0
      · intro sr h
        rcases cycleGo_st_searches c c.n 0 _ sr h with h1 | h1
        · dsimp only at h1
          rw [hse] at h1
          exact hsr sr h1
        · dsimp only at h1
          rw [h1.1]
          exact hu0
      · intro e h
        rw [cycleGo_st_iterLog] at h
        dsimp only at h
        rw [hie] at h
        rcases List.mem_append.1 h with h1 | h1
        · exact hil e h1
        · rw [List.mem_singleton] at h1
          subst h1
          exact ⟨hu0, hb0⟩
      · intro s7 hu7 hs7 hi7
        exact ih (iter + 1) s7 hu7 hs7 hi7

theorem powellExtra_iterLogLen (c : PCtx)
    (recur : PState → Option (List JsNum) × PState) (s4 : PState)
    (un : List JsNum) (b : ℕ)
    (hrec : ∀ s : PState, (recur s).2.iterLog.length ≤ s.iterLog.length + b) :
    (powellExtra c recur s4 un).2.iterLog.length ≤ s4.iterLog.length + b := by
  simp only [powellExtra]
  cases hM : c.lineMin (fiFn c.f c.n s4.p un)
      (boundStep c.hasBounds c.bounds c.n s4.p un).1
      (boundStep c.hasBounds c.bounds c.n s4.p un).2 c.dx c.tol1d c.maxILS with
  | none => exact Nat.le_add_right _ _
  | some t =>
      dsimp only
      by_cases ht : (seq t (fin ⟨0, 1⟩) || !t.isFin) = true
      · rw [if_pos ht]
        exact Nat.le_add_right _ _
      · rw [if_neg ht]
        by_cases hrat : lt (c.sqrtFn (((List.range c.n).map fun j =>
            t * un.getD j nan).foldl (fun acc x => acc + x * x) (fin ⟨0, 1⟩))
            / s4.perr) c.tol = true
        · rw [if_pos hrat]
          exact Nat.le_add_right _ _
        · rw [if_neg hrat]
          exact hrec _

theorem powellTail_iterLogLen (c : PCtx)
    (recur : PState → Option (List JsNum) × PState) (p0 : List JsNum)
    (cy : CycleRes) (b : ℕ)
    (hrec : ∀ s : PState, (recur s).2.iterLog.length ≤ s.iterLog.length + b) :
    (powellTail c recur p0 cy).2.iterLog.length ≤ cy.st.iterLog.length + b := by
  cases cy with
  | ret r s2 => exact Nat.le_add_right _ _
  | cont s2 =>
      simp only [CycleRes.st, powellTail]
      by_cases hsum : gt (c.sqrtFn (((List.range c.n).map fun j =>
          s2.p.getD j nan - p0.getD j nan).foldl (fun acc x => acc + x * x)
          (fin ⟨0, 1⟩))) (fin ⟨0, 1⟩) = true
      · rw [if_pos hsum]
        exact powellExtra_iterLogLen c recur _ _ b hrec
      · rw [if_neg hsum]
        exact Nat.le_add_right _ _

/-- C10 at the level of the outer loop: at most `fuel` iteration-log entries
are added, the fuel being `maxIter - 1` at the top-level call. -/
theorem powellLoop_iterLogLen (c : PCtx) :
    ∀ (fuel iter : ℕ) (s : PState),
      (powellLoop c fuel iter s).2.iterLog.length ≤ s.iterLog.length + fuel := by
  intro fuel
  induction fuel with
  | zero => intro iter s; exact Nat.le_refl _
  | succ fuel ih =>
      intro iter s
      have hie : (if c.n ≠ 0 ∧ iter % c.n = 0 then { s with u := stdBasis c.n }
          else s).iterLog = s.iterLog := by split <;> rfl
      have key : ∀ s1 : PState,
          (powellTail c (powellLoop c fuel (iter + 1)) s1.p
              (cycleGo c c.n 0 s1)).2.iterLog.length
            ≤ s1.iterLog.length + fuel := by
        intro s1
        have h1 := powellTail_iterLogLen c (powellLoop c fuel (iter + 1)) s1.p
          (cycleGo c c.n 0 s1) fuel (fun s7 => ih (iter + 1) s7)
        rw [cycleGo_st_iterLog] at h1
        exact h1
      simp only [powellLoop]
      refine le_trans (key _) ?_
      show ((if c.n ≠ 0 ∧ iter % c.n = 0 then { s with u := stdBasis c.n }
            else s).iterLog
          ++ [(iter, (if c.n ≠ 0 ∧ iter % c.n = 0 then { s with u := stdBasis c.n }
            else s).u)]).length + fuel ≤ s.iterLog.length + (fuel + 1)
      rw [hie]
      simp only [List.length_append, List.length_singleton]
      omega

/-- C6: throughout every run of `minimizePowell` with `n = x0.length >= 1`
(for any line minimizer and square-root function, hence in particular for the
source pipeline), the direction set contains exactly `n` direction vectors at
the start of each 1D line search, and every outer iteration whose index is a
multiple of `n` starts with the direction set reset to the standard
orthonormal basis of dimension `n`. -/
theorem minimizePowell_direction_set_invariant
    (lineMin : (JsNum → JsNum) → JsNum → JsNum → JsNum → JsNum → ℕ → Option JsNum)
    (sqrtFn : JsNum → JsNum) (f : List JsNum → JsNum) (x0 : List JsNum)
    (opts : PowellOptions) (hn : 1 ≤ x0.length) :
    (∀ sr ∈ (minimizePowellWith lineMin sqrtFn f x0 opts).2.searches,
        sr.dirs.length = x0.length)
      ∧ (∀ e ∈ (minimizePowellWith lineMin sqrtFn f x0 opts).2.iterLog,
          e.2.length = x0.length
            ∧ (e.1 % x0.length = 0 → e.2 = stdBasis x0.length)) := by
  have h := powellLoop_dirs
    ⟨lineMin, sqrtFn, f, x0.length, opts.bounds.isSome, opts.bounds.getD [],
      fin ⟨1, 10⟩, opts.tolerance.getD (fin ⟨1, 100000000⟩),
      opts.lineTolerance.getD (opts.tolerance.getD (fin ⟨1, 100000000⟩)) * fin ⟨1, 10⟩,
      opts.maxIterLinearSearch.getD 100⟩ hn
    (opts.maxIter.getD 20 - 1) 1
    ⟨constrainP (opts.bounds.getD []) x0, stdBasis x0.length, fin ⟨0, 1⟩,
      [constrainP (opts.bounds.getD []) x0], [], []⟩
    (stdBasis_length x0.length) (by intro sr h1; cases h1) (by intro e h1; cases h1)
  exact h

theorem minimizePowell_direction_set_invariant_witness :
    ((⟨stdBasis 1, [fin ⟨0, 1⟩], [[fin ⟨0, 1⟩]], true, some (fin ⟨0, 1⟩)⟩ : SearchRec).dirs.length = 1)
      ∧ (((1, stdBasis 1) : ℕ × List (List JsNum)).2.length = 1
          ∧ (((1, stdBasis 1) : ℕ × List (List JsNum)).1 % 1 = 0 →
              ((1, stdBasis 1) : ℕ × List (List JsNum)).2 = stdBasis 1)) :=
  ⟨(minimizePowell_direction_set_invariant (fun _ _ _ _ _ _ => some (fin ⟨0, 1⟩))
      JsNum.sqrt (fun _ => fin ⟨0, 1⟩) [fin ⟨0, 1⟩] {} (by decide)).1 _ (by decide),
   (minimizePowell_direction_set_invariant (fun _ _ _ _ _ _ => some (fin ⟨0, 1⟩))
      JsNum.sqrt (fun _ => fin ⟨0, 1⟩) [fin ⟨0, 1⟩] {} (by decide)).2 _ (by decide)⟩

/-- C7: for every objective, options, line minimizer and square-root function:
if an in-cycle 1D line search of `minimizePowell` returns a step strictly
equal to `0` (the source's `tmin === 0`), `minimizePowell` immediately returns
the point as it stood at that search, that search is the last one performed,
and the recorded points trace is unchanged past it (no further searches or
point updates). -/
theorem minimizePowell_zero_step_stops
    (lineMin : (JsNum → JsNum) → JsNum → JsNum → JsNum → JsNum → ℕ → Option JsNum)
    (sqrtFn : JsNum → JsNum) (f : List JsNum → JsNum) (x0 : List JsNum)
    (opts : PowellOptions) :
    ∀ sr ∈ (minimizePowellWith lineMin sqrtFn f x0 opts).2.searches,
      sr.inCycle = true → ∀ t, sr.tmin = some t → seq t (fin ⟨0, 1⟩) = true →
        (minimizePowellWith lineMin sqrtFn f x0 opts).1 = some sr.point
          ∧ (minimizePowellWith lineMin sqrtFn f x0 opts).2.searches.getLast?
              = some sr
          ∧ (minimizePowellWith lineMin sqrtFn f x0 opts).2.points = sr.pts := by
  intro sr h hc t ht hs
  exact powellLoop_zeroStop
    ⟨lineMin, sqrtFn, f, x0.length, opts.bounds.isSome, opts.bounds.getD [],
      fin ⟨1, 10⟩, opts.tolerance.getD (fin ⟨1, 100000000⟩),
      opts.lineTolerance.getD (opts.tolerance.getD (fin ⟨1, 100000000⟩)) * fin ⟨1, 10⟩,
      opts.maxIterLinearSearch.getD 100⟩
    (opts.maxIter.getD 20 - 1) 1
    ⟨constrainP (opts.bounds.getD []) x0, stdBasis x0.length, fin ⟨0, 1⟩,
      [constrainP (opts.bounds.getD []) x0], [], []⟩
    (by intro sr2 h2; cases h2) sr h ⟨hc, t, ht, hs⟩

theorem minimizePowell_zero_step_stops_witness :
    (minimizePowellWith (fun _ _ _ _ _ _ => some (fin ⟨0, 1⟩)) JsNum.sqrt
        (fun _ => fin ⟨1, 1⟩) [fin ⟨2, 1⟩] {}).1
        = some (⟨stdBasis 1, [fin ⟨2, 1⟩], [[fin ⟨2, 1⟩]], true,
            some (fin ⟨0, 1⟩)⟩ : SearchRec).point
      ∧ (minimizePowellWith (fun _ _ _ _ _ _ => some (fin ⟨0, 1⟩)) JsNum.sqrt
          (fun _ => fin ⟨1, 1⟩) [fin ⟨2, 1⟩] {}).2.searches.getLast?
        = some ⟨stdBasis 1, [fin ⟨2, 1⟩], [[fin ⟨2, 1⟩]], true, some (fin ⟨0, 1⟩)⟩
      ∧ (minimizePowellWith (fun _ _ _ _ _ _ => some (fin ⟨0, 1⟩)) JsNum.sqrt
          (fun _ => fin ⟨1, 1⟩) [fin ⟨2, 1⟩] {}).2.points
        = (⟨stdBasis 1, [fin ⟨2, 1⟩], [[fin ⟨2, 1⟩]], true,
            some (fin ⟨0, 1⟩)⟩ : SearchRec).pts :=
  minimizePowell_zero_step_stops (fun _ _ _ _ _ _ => some (fin ⟨0, 1⟩)) JsNum.sqrt
    (fun _ => fin ⟨1, 1⟩) [fin ⟨2, 1⟩] {} _ (by decide) (by decide) (fin ⟨0, 1⟩)
    (by decide) (by decide)

/-- C10: the outer loop of `minimizePowell` executes at most `maxIter - 1`
iterations, because the loop condition pre-increments the counter and tests
`++iter < maxIter`; in particular with `maxIter <= 1` the loop body never
runs: no line search is performed, the objective is never evaluated (the
whole run is independent of it), and the result is the bounds-clamped copy of
`x0` with an empty search and iteration log. -/
theorem minimizePowell_preincremented_budget
    (lineMin : (JsNum → JsNum) → JsNum → JsNum → JsNum → JsNum → ℕ → Option JsNum)
    (sqrtFn : JsNum → JsNum) (f g : List JsNum → JsNum) (x0 : List JsNum)
    (opts : PowellOptions) :
    (minimizePowellWith lineMin sqrtFn f x0 opts).2.iterLog.length
        ≤ opts.maxIter.getD 20 - 1
      ∧ (opts.maxIter.getD 20 ≤ 1 →
          minimizePowellWith lineMin sqrtFn f x0 opts
              = (some (constrainP (opts.bounds.getD []) x0),
                ⟨constrainP (opts.bounds.getD []) x0, stdBasis x0.length,
                  fin ⟨0, 1⟩, [constrainP (opts.bounds.getD []) x0], [], []⟩)
            ∧ minimizePowellWith lineMin sqrtFn f x0 opts
              = minimizePowellWith lineMin sqrtFn g x0 opts) := by
  have hunf : ∀ ff : List JsNum → JsNum,
      minimizePowellWith lineMin sqrtFn ff x0 opts
        = powellLoop
            ⟨lineMin, sqrtFn, ff, x0.length, opts.bounds.isSome, opts.bounds.getD [],
              fin ⟨1, 10⟩, opts.tolerance.getD (fin ⟨1, 100000000⟩),
              opts.lineTolerance.getD (opts.tolerance.getD (fin ⟨1, 100000000⟩))
                * fin ⟨1, 10⟩,
              opts.maxIterLinearSearch.getD 100⟩
            (opts.maxIter.getD 20 - 1) 1
            ⟨constrainP (opts.bounds.getD []) x0, stdBasis x0.length, fin ⟨0, 1⟩,
              [constrainP (opts.bounds.getD []) x0], [], []⟩ := fun ff => rfl
  constructor
  · rw [hunf f]
    have h1 := powellLoop_iterLogLen
      ⟨lineMin, sqrtFn, f, x0.length, opts.bounds.isSome, opts.bounds.getD [],
        fin ⟨1, 10⟩, opts.tolerance.getD (fin ⟨1, 100000000⟩),
        opts.lineTolerance.getD (opts.tolerance.getD (fin ⟨1, 100000000⟩))
          * fin ⟨1, 10⟩,
        opts.maxIterLinearSearch.getD 100⟩
      (opts.maxIter.getD 20 - 1) 1
      ⟨constrainP (opts.bounds.getD []) x0, stdBasis x0.length, fin ⟨0, 1⟩,
        [constrainP (opts.bounds.getD []) x0], [], []⟩
    simpa using h1
  · intro hm
    have h0 : opts.maxIter.getD 20 - 1 = 0 := by omega
    rw [hunf f, hunf g, h0]
    exact ⟨rfl, rfl⟩

theorem minimizePowell_preincremented_budget_witness :
    (minimizePowellWith (fun _ _ _ _ _ _ => some (fin ⟨0, 1⟩)) JsNum.sqrt
        (fun _ => fin ⟨0, 1⟩) [fin ⟨5, 1⟩]
        { maxIter := some 1,
          bounds := some [some (fin ⟨0, 1⟩, fin ⟨1, 1⟩)] }).2.iterLog.length ≤ 0
      ∧ (minimizePowellWith (fun _ _ _ _ _ _ => some (fin ⟨0, 1⟩)) JsNum.sqrt
            (fun _ => fin ⟨0, 1⟩) [fin ⟨5, 1⟩]
            { maxIter := some 1, bounds := some [some (fin ⟨0, 1⟩, fin ⟨1, 1⟩)] }
          = (some [fin ⟨1, 1⟩],
            ⟨[fin ⟨1, 1⟩], stdBasis 1, fin ⟨0, 1⟩, [[fin ⟨1, 1⟩]], [], []⟩)
        ∧ minimizePowellWith (fun _ _ _ _ _ _ => some (fin ⟨0, 1⟩)) JsNum.sqrt
            (fun _ => fin ⟨0, 1⟩) [fin ⟨5, 1⟩]
            { maxIter := some 1, bounds := some [some (fin ⟨0, 1⟩, fin ⟨1, 1⟩)] }
          = minimizePowellWith (fun _ _ _ _ _ _ => some (fin ⟨0, 1⟩)) JsNum.sqrt
            (fun _ => fin ⟨1, 1⟩) [fin ⟨5, 1⟩]
            { maxIter := some 1, bounds := some [some (fin ⟨0, 1⟩, fin ⟨1, 1⟩)] }) := by
  have h := minimizePowell_preincremented_budget
    (fun _ _ _ _ _ _ => some (fin ⟨0, 1⟩)) JsNum.sqrt
    (fun _ => fin ⟨0, 1⟩) (fun _ => fin ⟨1, 1⟩) [fin ⟨5, 1⟩]
    { maxIter := some 1, bounds := some [some (fin ⟨0, 1⟩, fin ⟨1, 1⟩)] }
  have h2 := h.2 (by decide)
  refine ⟨h.1, ?_, h2.2⟩
  rw [h2.1]
  rfl
